import Mathlib

/-!
# Verification of the `linkcheck` crawler (adhocteam/linkcheck)

Shallow embedding of `linkcheck.go` and proofs about its specification.

The concurrent `run` loop is embedded as an explicit event-driven state
machine: each iteration of the Go `select` consumes one `Event`
(a successful hand-off to a worker, a completed fetch result, or a
SIGINT on `stopChan`).  Workers are pure fetch-and-report units, so a
site is abstracted as a function from URL to fetch outcome; worker
count only restricts which event interleavings are possible and does
not otherwise appear in the semantics.

External collaborators (`net/http` transport, `net/url` parsing and
reference resolution, `x/net/html` parsing, the `regexp` engine) are
not part of this repository; they enter the embedding either as
function parameters or as definitions modelled from the spec's
interface contracts (so marked in their doc comments).
-/

set_option maxHeartbeats 1000000
set_option linter.unnecessarySeqFocus false

namespace Linkcheck

/-! ## Fragment handling

Models the `url.Parse` / `u.Fragment = ""` / `u.String()` idiom used at
`linkcheck.go:163-165` and `linkcheck.go:183-186`: the fragment of a URL
string is everything after the first `#`, and re-serialising after
clearing the fragment yields the part before the first `#`.  (Split
helpers are written over character lists so concrete instances reduce
inside the kernel; `Char.ofNat 35/47/58/63` are `#`, `/`, `:`, `?`.) -/

/-- Split a character list at the first occurrence of `c`: the part
before it, and (when `c` occurs) the part after it. -/
def breakAtChar (c : Char) : List Char → List Char × Option (List Char)
  | [] => ([], none)
  | x :: xs =>
      if x = c then ([], some xs)
      else
        let r := breakAtChar c xs
        (x :: r.1, r.2)

/-- The URL with its fragment (everything from the first `#` on) removed. -/
def stripFrag (s : String) : String := ⟨(breakAtChar (Char.ofNat 35) s.data).1⟩

/-- The fragment of a URL string: everything after the first `#`
(empty when there is no `#`). -/
def fragOf (s : String) : String :=
  match (breakAtChar (Char.ofNat 35) s.data).2 with
  | some rest => ⟨rest⟩
  | none => ""

/-- `strings.HasPrefix s pre` (Go standard library, external): is
`pre` a prefix of `s`?  Defined over the character lists (equivalent to
the byte-prefix test on UTF-8 strings) so that concrete instances
evaluate by `decide`. -/
def goHasPrefix (s pre : String) : Bool := pre.data.isPrefixOf s.data

/-! ## URLs and reference resolution

`linkcheck.go` delegates URL parsing and resolution to `net/url`
(external to this repository).  Modelled from the spec: §4.1 "URL
Normalizer" — `resolve(base, ref)` follows standard base/relative URL
resolution semantics (scheme, authority, path, query inherited from the
base when the reference is relative; the reference's own components
otherwise), and the fragment of the result is the reference's fragment. -/

structure GoURL where
  scheme : String
  host : String
  path : String
  query : String
  fragment : String
deriving DecidableEq, Repr

/-- Modelled from the spec: parsing a URL string into its components
(`net/url.Parse` is external to this repository).  The fragment is the
part after the first `#`, the query the part after the first `?` of the
rest, the scheme the part before `://` when present, and the host runs
to the next `/`. -/
def breakAtSub (sep : List Char) : List Char → Option (List Char × List Char)
  | [] => none
  | x :: xs =>
      if sep.isPrefixOf (x :: xs) then some ([], (x :: xs).drop sep.length)
      else
        match breakAtSub sep xs with
        | some r => some (x :: r.1, r.2)
        | none => none

def urlParse (s : String) : GoURL :=
  let frag := fragOf s
  let rest := (breakAtChar (Char.ofNat 35) s.data).1
  let qsplit := breakAtChar (Char.ofNat 63) rest
  let query : String := match qsplit.2 with | some q => ⟨q⟩ | none => ""
  match breakAtSub [Char.ofNat 58, Char.ofNat 47, Char.ofNat 47] qsplit.1 with
  | none => { scheme := "", host := "", path := ⟨qsplit.1⟩,
              query := query, fragment := frag }
  | some r =>
      let hsplit := breakAtChar (Char.ofNat 47) r.2
      let path : String := match hsplit.2 with
        | some p => ⟨Char.ofNat 47 :: p⟩
        | none => ""
      { scheme := ⟨r.1⟩, host := ⟨hsplit.1⟩, path := path,
        query := query, fragment := frag }

/-- Serialisation of a parsed URL back to a string (`(*url.URL).String`,
external to this repository; modelled from the spec's contract that
resolution produces an absolute URL string). -/
def urlToString (u : GoURL) : String :=
  (if u.scheme ≠ "" then u.scheme ++ "://" else "") ++ u.host ++ u.path
    ++ (if u.query ≠ "" then "?" ++ u.query else "")
    ++ (if u.fragment ≠ "" then "#" ++ u.fragment else "")

/-- Merging a relative path into the base's directory (RFC 3986 §5.3
merge; dot-segment removal is not modelled — no claim depends on it). -/
def mergePaths (basePath refPath : String) : String :=
  ⟨(basePath.data.reverse.dropWhile (fun c => c ≠ Char.ofNat 47)).reverse
    ++ refPath.data⟩

/-- Modelled from the spec: §4.1 — standard base/relative URL resolution
(`(*url.URL).ResolveReference`, external to this repository).  For an
empty reference the base's scheme, authority, path and query are kept
and the fragment is the (empty) fragment of the reference. -/
def resolve (base ref : GoURL) : GoURL :=
  if ref.scheme ≠ "" then ref
  else if ref.host ≠ "" then { ref with scheme := base.scheme }
  else if ref.path = "" then
    { scheme := base.scheme, host := base.host, path := base.path,
      query := if ref.query ≠ "" then ref.query else base.query,
      fragment := ref.fragment }
  else if goHasPrefix ref.path "/" then
    { scheme := base.scheme, host := base.host, path := ref.path,
      query := ref.query, fragment := ref.fragment }
  else
    { scheme := base.scheme, host := base.host,
      path := mergePaths base.path ref.path,
      query := ref.query, fragment := ref.fragment }

/-- `parseURL` from `linkcheck.go:339-346`: parse the reference and
resolve it against the base URL, yielding an absolute URL string.
(The source panics on an unparsable reference; the modelled parser is
total, which spec §9 flags as the recommended behaviour.) -/
def parseURL (baseurl ref : String) : String :=
  urlToString (resolve (urlParse baseurl) (urlParse ref))

/-! ## HTML nodes and link extraction

`html.Parse` (x/net/html) is an external collaborator; its output is a
node tree.  The walk over that tree is source code (`getLinks`,
`isAnchor`, `href` in `linkcheck.go:265-311`) and is embedded here. -/

/-- Node kinds of `x/net/html` (external collaborator's data type). -/
inductive NodeType where
  | errorNode | textNode | documentNode | elementNode | commentNode | doctypeNode
deriving DecidableEq, Repr

inductive HNode where
  | mk (ntype : NodeType) (data : String) (attrs : List (String × String))
      (children : List HNode)

def HNode.ntype : HNode → NodeType | .mk t _ _ _ => t
def HNode.data : HNode → String | .mk _ d _ _ => d
def HNode.attrs : HNode → List (String × String) | .mk _ _ a _ => a
def HNode.children : HNode → List HNode | .mk _ _ _ c => c

/-- `isAnchor` from `linkcheck.go:300-302`. -/
def isAnchor (n : HNode) : Bool :=
  n.ntype == NodeType.elementNode && n.data == "a"

/-- `href` from `linkcheck.go:304-311`: the value of the first `href`
attribute, or the empty string when the node has none. -/
def href (n : HNode) : String :=
  match n.attrs.find? (fun attr => attr.1 == "href") with
  | some attr => attr.2
  | none => ""

/-- The recursive walk `f` inside `getLinks` (`linkcheck.go:273-285`):
visit a node, record `parseURL url (href n)` if it is an anchor, then
recurse into the children in order. -/
def walkLinks (url : String) : HNode → List String
  | .mk t d a cs =>
      (if isAnchor (.mk t d a cs) then [parseURL url (href (.mk t d a cs))] else [])
        ++ cs.attach.flatMap (fun c => walkLinks url c.1)
decreasing_by
  simp only [HNode.mk.sizeOf_spec]
  have h := List.sizeOf_lt_of_mem c.2
  omega

/-- `getLinks` from `linkcheck.go:265-288`, with `html.Parse` supplied
externally: on a parse error the walk never runs and no links are
returned. -/
def getLinks (parseHTML : List UInt8 → Option HNode) (url : String)
    (body : List UInt8) : List String :=
  match parseHTML body with
  | none => []
  | some doc => walkLinks url doc

/-! ## Link filtering (`excludeLink`, `linkcheck.go:313-336`) -/

def invalidProtos : List String := ["mailto:", "javascript:", "tel:", "sms:"]

/-- `excludeLink` from `linkcheck.go:324-336`. -/
def excludeLink (excludePaths : List String) (ref : String) : Bool :=
  invalidProtos.any (fun proto => goHasPrefix ref proto)
    || excludePaths.any (fun p => goHasPrefix ref p)

/-! ## The page fetcher (`fetch`, `linkcheck.go:211-263`)

The HTTP transport is external: a GET either fails (`http.Get` error)
or yields a response with a status code, status text, the body bytes,
and optionally an error that the body stream reports at its end (the
`bufio` reader surfaces it from `Peek` when fewer than 512 bytes are
available, otherwise from `ReadAll`).  `http.DetectContentType` and
`html.Parse` and the `regexp` engine behind `idRx` are likewise
external and are passed in as `FetchExt`. -/

structure HttpResponse where
  statusCode : Nat
  status : String
  body : List UInt8
  readErr : Option String
deriving DecidableEq, Repr

structure FetchExt where
  /-- `http.DetectContentType` (external): sniffs a MIME type from at
  most the first 512 bytes. -/
  detect : List UInt8 → String
  /-- `html.Parse` (external): parses bytes into a node tree, `none` on
  a parse error. -/
  parseHTML : List UInt8 → Option HNode
  /-- The captures of `idRx.FindAllSubmatch` (`linkcheck.go:290-298`;
  the regex engine is external, `pageIDs` maps its submatches to
  strings). -/
  idScan : List UInt8 → List String

/-- The result triple of `fetch`: `links` is nil/empty on every
non-link-extracting path, `ids` is `none` exactly when the Go function
returns a nil map, `err` is `none` on success. -/
structure FetchOut where
  links : List String
  ids : Option (List String)
  err : Option String
deriving DecidableEq, Repr

/-- `pageIDs` from `linkcheck.go:292-298` (the page's ids, in match
order; the Go code stores them in a set, membership is what is used). -/
def pageIDs (ext : FetchExt) (body : List UInt8) : List String :=
  ext.idScan body

/-- `fetch` from `linkcheck.go:211-263`.  `get` is the outcome of
`http.Get url` (external transport). -/
def fetch (ext : FetchExt) (excludePaths : List String) (url : String)
    (get : Except String HttpResponse) (processLinks : Bool) : FetchOut :=
  match get with
  | .error msg => ⟨[], none, some msg⟩
  | .ok res =>
    if res.statusCode ≠ 200 then ⟨[], none, some res.status⟩
    else
      let peek := res.body.take 512
      if res.body.length < 512 && res.readErr.isSome then
        ⟨[], none, res.readErr⟩
      else if !goHasPrefix (ext.detect peek) "text/html" then
        ⟨[], some [], none⟩
      else
        match res.readErr with
        | some m => ⟨[], none, some m⟩
        | none =>
          let links :=
            if processLinks then
              (getLinks ext.parseHTML url res.body).filter
                (fun ref => !excludeLink excludePaths ref)
            else []
          ⟨links, some (pageIDs ext res.body), none⟩

/-! ## The crawl scheduler (`run`, `linkcheck.go:95-209`)

A worker's fetch outcome is a pure function of the URL, so a site is
abstracted as `F : String → FetchRes` giving the outcome `fetch` would
produce with `processLinks = true`; the worker at `linkcheck.go:104-110`
computes `processLinks := strings.HasPrefix(url, base)` and link
extraction is the only thing `processLinks` gates, so its result is
`workerRes F base u`. -/

inductive FetchRes where
  | fail (msg : String)
  | ok (links : List String) (ids : List String)
deriving DecidableEq, Repr

/-- The `fetchResult` a worker sends back for `u`
(`linkcheck.go:104-110`): links are extracted iff `u` is under the
root prefix. -/
def workerRes (F : String → FetchRes) (base u : String) : FetchRes :=
  match F u with
  | .fail m => .fail m
  | .ok l i => .ok (if goHasPrefix u base then l else []) i

/-- Go-map model: association list looked up by key. -/
def lookup {α : Type} : List (String × α) → String → Option α
  | [], _ => none
  | (k', v') :: rest, k => if k' = k then some v' else lookup rest k

/-- Go-map model: `m[k] = v` (replace the existing entry or append). -/
def mapSet {α : Type} : List (String × α) → String → α → List (String × α)
  | [], k, v => [(k, v)]
  | (k', v') :: rest, k, v =>
      if k' = k then (k, v) :: rest else (k', v') :: mapSet rest k v

/-- The state owned by `run`'s control loop (`linkcheck.go:113-126`),
plus ghost history fields (`inflight`, `dispatched`, `processed`,
`history`) that record dispatch/completion/enqueue events and do not
influence the computation. -/
structure RunState where
  /-- `needs`: URL fetched → URLs it links to. -/
  needs : List (String × List String) := []
  /-- `crawled`: URL → set of ids on the page (`none` models absence). -/
  crawled : List (String × List String) := []
  /-- `queue`: URLs still to be crawled. -/
  queue : List String
  /-- `queued`: set of URLs ever enqueued. -/
  queued : List String
  /-- `openFetchs`: fetches in flight. -/
  openFetchs : Nat := 0
  /-- `errs`: the `urlErr` list (url, error message). -/
  errs : List (String × String) := []
  exitCode : Nat := 0
  /-- Ghost: URLs dispatched whose result has not been received. -/
  inflight : List String := []
  /-- Ghost: all URLs ever handed to a worker, in dispatch order. -/
  dispatched : List String := []
  /-- Ghost: all URLs whose results were received, in receipt order. -/
  processed : List String := []
  /-- Ghost: all URLs ever appended to `queue`, in order. -/
  history : List String
deriving DecidableEq, Repr

/-- The initial state of `run` (`linkcheck.go:118-121`): the queue is
seeded with the root, which is marked queued. -/
def initState (base : String) : RunState :=
  { queue := [base], queued := [base], history := [base] }

/-- Lines 161-170: strip the link's fragment, and enqueue it only if
that form was never queued before (marking it queued first). -/
def enqueue1 (s : RunState) (link : String) : RunState :=
  let l := stripFrag link
  if l ∈ s.queued then s
  else { s with queued := s.queued ++ [l], queue := s.queue ++ [l],
                history := s.history ++ [l] }

/-- Lines 147-170: process one received `fetchResult` for `u`. -/
def procResult (base : String) (s : RunState) (u : String) (r : FetchRes) :
    RunState :=
  let s := { s with openFetchs := s.openFetchs - 1,
                    inflight := s.inflight.erase u,
                    processed := s.processed ++ [u] }
  match r with
  | .fail m => { s with errs := s.errs ++ [(u, m)] }
  | .ok links ids =>
      let s := { s with crawled := mapSet s.crawled u ids }
      if !goHasPrefix u base then s
      else
        let s := { s with needs := mapSet s.needs u links }
        links.foldl enqueue1 s

/-- One ready `select` case of the loop at `linkcheck.go:140-174`. -/
inductive Event where
  /-- The head of the queue is handed to an idle worker (enabled only
  when the queue is non-empty: with an empty queue `loopqueue` is nil
  and that case blocks forever). -/
  | dispatch
  /-- A worker's result for `u` arrives (enabled only while `u` is in
  flight). -/
  | complete (u : String)
  /-- A SIGINT arrives on `stopChan`. -/
  | cancel
deriving DecidableEq, Repr

/-- One iteration of the `select` (`linkcheck.go:140-174`); an event
whose case is not ready leaves the state unchanged. -/
def step (F : String → FetchRes) (base : String) (s : RunState) :
    Event → RunState
  | .dispatch =>
      match s.queue with
      | [] => s
      | u :: rest =>
          { s with queue := rest, openFetchs := s.openFetchs + 1,
                   inflight := s.inflight ++ [u],
                   dispatched := s.dispatched ++ [u] }
  | .complete u =>
      if u ∈ s.inflight then procResult base s u (workerRes F base u) else s
  | .cancel => { s with exitCode := 3 }

/-- The loop guard of `linkcheck.go:132`. -/
def loopCond (s : RunState) : Bool :=
  (s.openFetchs > 0 || !s.queue.isEmpty) && s.exitCode == 0

/-- The control loop (`linkcheck.go:132-175`) driven by a sequence of
ready events; it stops as soon as the guard fails. -/
def runLoop (F : String → FetchRes) (base : String) :
    RunState → List Event → RunState
  | s, [] => s
  | s, e :: es =>
      if loopCond s then runLoop F base (step F base s e) es else s

/-! ## The reconciler (`linkcheck.go:181-197`) and exit code

Go iterates the `needs` map with `range`, whose order is unspecified;
the reconciler is therefore parameterised by the iteration order
(`order`), a permutation of the map's entries. -/

/-- The reconciliation pass appending to the accumulated `errs`
(`linkcheck.go:181-197`). -/
def reconcile (init : List (String × String))
    (order : List (String × List String))
    (crawled : List (String × List String)) : List (String × String) :=
  order.foldl
    (fun errs sd =>
      sd.2.foldl
        (fun errs destURL =>
          let frag := fragOf destURL
          let link := stripFrag destURL
          match lookup crawled link with
          | none => errs ++ [(sd.1, "failed to fetch: " ++ destURL)]
          | some ids =>
              if frag != "" && !ids.contains frag then
                errs ++ [(sd.1, "missing fragment: " ++ destURL)]
              else errs)
        errs)
    init

/-- `run` end to end (`linkcheck.go:95-209`): drive the loop, run the
reconciler over the final maps (with `order` the arbitrary iteration
order of the `needs` map), and derive the exit code; the returned list
is the defect list printed at `linkcheck.go:200-202`, one line per
entry. -/
def runMain (F : String → FetchRes) (base : String) (evs : List Event)
    (order : List (String × List String)) : Nat × List (String × String) :=
  let s := runLoop F base (initState base) evs
  let errs := reconcile s.errs order s.crawled
  let code := if errs.length > 0 && s.exitCode == 0 then 1 else s.exitCode
  (code, errs)

/-- The defect(s) the reconciler emits for a single
(source, destination) pair: at most one, chosen by the nil check and
then the fragment check. -/
def checkPair (crawled : List (String × List String)) (src destURL : String) :
    List (String × String) :=
  match lookup crawled (stripFrag destURL) with
  | none => [(src, "failed to fetch: " ++ destURL)]
  | some ids =>
      if fragOf destURL != "" && !ids.contains (fragOf destURL) then
        [(src, "missing fragment: " ++ destURL)]
      else []

/-- A fixed external-collaborator bundle used to evaluate `fetch` at
concrete inputs: sniffing always reports plain text, parsing and id
scanning yield nothing. -/
def extPlain : FetchExt :=
  ⟨fun _ => "text/plain; charset=utf-8", fun _ => none, fun _ => []⟩

/-! ## Map-model lemmas -/

theorem lookup_mapSet_self {α : Type} (m : List (String × α)) (k : String)
    (v : α) : lookup (mapSet m k v) k = some v := by
  induction m with
  | nil => simp [mapSet, lookup]
  | cons p rest ih =>
      obtain ⟨k', v'⟩ := p
      by_cases h : k' = k
      · simp [mapSet, h, lookup]
      · simp [mapSet, h, lookup, ih]

theorem lookup_mapSet_ne {α : Type} (m : List (String × α)) {k k' : String}
    (v : α) (h : k' ≠ k) : lookup (mapSet m k v) k' = lookup m k' := by
  induction m with
  | nil => simp [mapSet, lookup, Ne.symm h]
  | cons p rest ih =>
      obtain ⟨k₀, v₀⟩ := p
      by_cases hk : k₀ = k
      · subst hk
        simp [mapSet, lookup, Ne.symm h]
      · simp [mapSet, hk, lookup, ih]

theorem lookup_eq_none_iff {α : Type} (m : List (String × α)) (k : String) :
    lookup m k = none ↔ k ∉ m.map Prod.fst := by
  induction m with
  | nil => simp [lookup]
  | cons p rest ih =>
      obtain ⟨k₀, v₀⟩ := p
      by_cases hk : k₀ = k
      · simp [lookup, hk]
      · simp [lookup, hk, ih, Ne.symm hk]

theorem mapSet_of_lookup_none {α : Type} (m : List (String × α))
    {k : String} (v : α) (h : lookup m k = none) :
    mapSet m k v = m ++ [(k, v)] := by
  induction m with
  | nil => simp [mapSet]
  | cons p rest ih =>
      obtain ⟨k₀, v₀⟩ := p
      by_cases hk : k₀ = k
      · simp [lookup, hk] at h
      · simp [lookup, hk] at h
        simp [mapSet, hk, ih h]

theorem lookup_some_iff_mem {α : Type} {m : List (String × α)}
    (hnd : (m.map Prod.fst).Nodup) (k : String) (v : α) :
    lookup m k = some v ↔ (k, v) ∈ m := by
  induction m with
  | nil => simp [lookup]
  | cons p rest ih =>
      obtain ⟨k₀, v₀⟩ := p
      simp only [List.map_cons, List.nodup_cons] at hnd
      by_cases hk : k₀ = k
      · subst hk
        constructor
        · intro h
          simp only [lookup, if_pos rfl] at h
          injection h with h
          subst h
          exact List.mem_cons_self _ _
        · intro h
          rcases List.mem_cons.mp h with h | h
          · injection h with h1 h2
            simp [lookup, h2]
          · exact absurd (List.mem_map_of_mem Prod.fst h) hnd.1
      · simp only [lookup, if_neg hk, List.mem_cons, ih hnd.2]
        constructor
        · exact Or.inr
        · rintro (h | h)
          · cases h
            exact absurd rfl hk
          · exact h

/-- Two association lists with duplicate-free keys and the same lookup
function hold the same entries (up to order). -/
theorem assoc_perm {α : Type} {m₁ m₂ : List (String × α)}
    (h₁ : (m₁.map Prod.fst).Nodup) (h₂ : (m₂.map Prod.fst).Nodup)
    (h : ∀ k, lookup m₁ k = lookup m₂ k) : m₁.Perm m₂ := by
  refine (List.perm_ext_iff_of_nodup (h₁.of_map _) (h₂.of_map _)).mpr ?_
  rintro ⟨k, v⟩
  rw [← lookup_some_iff_mem h₁, ← lookup_some_iff_mem h₂, h]

/-! ## Reconciler lemmas -/

theorem foldl_append_of {α β : Type} (f : List β → α → List β)
    (g : α → List β) (hf : ∀ acc x, f acc x = acc ++ g x) :
    ∀ (l : List α) (init : List β), l.foldl f init = init ++ l.flatMap g := by
  intro l
  induction l with
  | nil => intro init; simp
  | cons x xs ih =>
      intro init
      simp [List.foldl_cons, hf, ih, List.flatMap_cons, List.append_assoc]

/-- The reconciliation pass appends, to the accumulated error list,
exactly the per-pair defects of `checkPair`, in iteration order. -/
theorem reconcile_eq (init : List (String × String))
    (order : List (String × List String))
    (crawled : List (String × List String)) :
    reconcile init order crawled =
      init ++ order.flatMap (fun sd => sd.2.flatMap (checkPair crawled sd.1)) := by
  unfold reconcile
  apply foldl_append_of
  intro acc sd
  apply foldl_append_of
  intro acc' destURL
  unfold checkPair
  cases h : lookup crawled (stripFrag destURL) with
  | none => simp [h]
  | some ids =>
      simp only [h]
      split <;> simp_all

/-! ## Claim C3: per-pair behaviour of the reconciler -/

/-- C3: for every (sourceURL, destinationLink) pair recorded in the
needs map, the reconciler splits the destination into a target URL and
a fragment; if the target has no entry in the crawled map it emits
exactly one defect `(sourceURL, "failed to fetch: <dest>")`, otherwise
if the fragment is non-empty and absent from the target's id set it
emits exactly one defect `(sourceURL, "missing fragment: <dest>")`, and
otherwise it emits no defect for that pair. -/
theorem reconciler_per_pair_defects (init : List (String × String))
    (order crawled : List (String × List String)) :
    reconcile init order crawled =
      init ++ order.flatMap (fun sd => sd.2.flatMap (fun destURL =>
        match lookup crawled (stripFrag destURL) with
        | none => [(sd.1, "failed to fetch: " ++ destURL)]
        | some ids =>
            if fragOf destURL != "" && !ids.contains (fragOf destURL) then
              [(sd.1, "missing fragment: " ++ destURL)]
            else [])) := by
  rw [reconcile_eq]
  rfl

/-! ## Claim C6: reconciler emission order -/

/-- C6 counterexample: two legal iteration orders of the same `needs`
map content (the lists are permutations of each other, exactly the
freedom Go's unordered `range` has) make the reconciler emit the same
defects in different orders, so the emission order is not deterministic
for fixed final map contents. -/
theorem reconcile_order_sensitive :
    ([(("a" : String), ["x"]), ("b", ["y"])] : List (String × List String)).Perm
        [("b", ["y"]), ("a", ["x"])]
    ∧ reconcile [] [("a", ["x"]), ("b", ["y"])] []
        ≠ reconcile [] [("b", ["y"]), ("a", ["x"])] [] := by
  constructor
  · decide
  · decide

/-- C6 amended: the reconciler iterates the `needs` map with Go `range`,
whose order is arbitrary, so the emission *order* may differ between
two runs over the same final maps; what is deterministic is the
multiset of emitted defects: any two iteration orders of the same
entries yield permutations of the same defect list. -/
theorem reconcile_deterministic_up_to_perm (init : List (String × String))
    (order₁ order₂ crawled : List (String × List String))
    (h : order₁.Perm order₂) :
    (reconcile init order₁ crawled).Perm (reconcile init order₂ crawled) := by
  rw [reconcile_eq, reconcile_eq]
  exact List.Perm.append_left init (h.flatMap_right _)

theorem reconcile_deterministic_up_to_perm_witness :
    (reconcile [] [(("a" : String), ["x"]), ("b", ["y"])] []).Perm
      (reconcile [] [("b", ["y"]), ("a", ["x"])] []) :=
  reconcile_deterministic_up_to_perm [] _ _ [] (by decide)

/-! ## Claim C2: when `fetch` returns an error -/

/-- C2 counterexample: a response whose status is in the 2xx range but
is not exactly 200 *does* make `fetch` return a status error — the
source checks `res.StatusCode != 200` (`linkcheck.go:219`), not
membership in the 2xx range. -/
theorem fetch_status_204_errors :
    200 ≤ 204 ∧ 204 < 300
    ∧ fetch extPlain [] "http://h/nc" (.ok ⟨204, "204 No Content", [], none⟩)
        true = ⟨[], none, some "204 No Content"⟩ :=
  ⟨by decide, by decide, rfl⟩

/-- C2 amended: `fetch` returns an error exactly when the GET suffers a
transport failure, or the status differs from 200 (so 2xx statuses
other than 200 are errors too), or the body stream fails (at the
512-byte peek when fewer than 512 bytes are available, or at the full
read of an HTML body); in the error case it returns no links and no
ids; a 200-status response with a cleanly readable body never yields an
error. -/
theorem fetch_error_conditions (ext : FetchExt) (excl : List String)
    (url : String) (get : Except String HttpResponse) (pl : Bool) :
    ((fetch ext excl url get pl).err.isSome = true ↔
      (∃ m, get = .error m)
      ∨ (∃ res, get = .ok res ∧ (res.statusCode ≠ 200
          ∨ (res.readErr.isSome = true ∧ (res.body.length < 512
              ∨ goHasPrefix (ext.detect (res.body.take 512)) "text/html" = true)))))
    ∧ ((fetch ext excl url get pl).err.isSome = true →
        (fetch ext excl url get pl).links = []
          ∧ (fetch ext excl url get pl).ids = none)
    ∧ (∀ res, get = .ok res → res.statusCode = 200 → res.readErr = none →
        (fetch ext excl url get pl).err = none) := by
  refine ⟨?_, ?_, ?_⟩
  · cases get with
    | error m => simp [fetch]
    | ok res =>
        by_cases h200 : res.statusCode = 200 <;>
        cases hre : res.readErr <;>
        cases hlt : decide (res.body.length < 512) <;>
        by_cases hct :
          goHasPrefix (ext.detect (res.body.take 512)) "text/html" = true <;>
        simp_all [fetch] <;> rw [if_neg (by omega)] <;> simp <;> omega
  · cases get with
    | error m =>
        intro _
        exact ⟨rfl, rfl⟩
    | ok res =>
        intro hsome
        by_cases h200 : res.statusCode = 200 <;>
        cases hre : res.readErr <;>
        cases hlt : decide (res.body.length < 512) <;>
        by_cases hct :
          goHasPrefix (ext.detect (res.body.take 512)) "text/html" = true <;>
        simp_all [fetch]
  · intro res h hs hn
    subst h
    cases hlt : decide (res.body.length < 512) <;>
    by_cases hct :
      goHasPrefix (ext.detect (res.body.take 512)) "text/html" = true <;>
    simp_all [fetch]

theorem fetch_error_conditions_witness :
    (fetch extPlain [] "http://h/nc" (.ok ⟨204, "204 No Content", [], none⟩)
        true).err.isSome = true
    ∧ (fetch extPlain [] "http://h/nc" (.ok ⟨204, "204 No Content", [], none⟩)
        true).ids = none
    ∧ (fetch extPlain [] "http://h/ok" (.ok ⟨200, "200 OK", [65], none⟩)
        true).err = none := by
  refine ⟨?_, ?_, ?_⟩
  · exact (fetch_error_conditions extPlain [] "http://h/nc"
      (.ok ⟨204, "204 No Content", [], none⟩) true).1.mpr
      (Or.inr ⟨_, rfl, Or.inl (by decide)⟩)
  · exact ((fetch_error_conditions extPlain [] "http://h/nc"
      (.ok ⟨204, "204 No Content", [], none⟩) true).2.1 (by rfl)).2
  · exact (fetch_error_conditions extPlain [] "http://h/ok"
      (.ok ⟨200, "200 OK", [65], none⟩) true).2.2 _ rfl rfl rfl

/-! ## Frontier lemmas -/

theorem enqueue1_cases (s : RunState) (link : String) :
    (stripFrag link ∈ s.queued ∧ enqueue1 s link = s)
    ∨ (stripFrag link ∉ s.queued ∧ enqueue1 s link =
        { s with queued := s.queued ++ [stripFrag link],
                 queue := s.queue ++ [stripFrag link],
                 history := s.history ++ [stripFrag link] }) := by
  by_cases h : stripFrag link ∈ s.queued
  · exact Or.inl ⟨h, by simp [enqueue1, h]⟩
  · exact Or.inr ⟨h, by simp [enqueue1, h]⟩

/-- Folding the enqueue step of `linkcheck.go:161-170` over a link list
appends some block `new` of fresh fragment-stripped URLs to `queued`,
`queue` and `history` simultaneously, and touches nothing else; every
element of `new` is duplicate-free and was not previously queued, and
every link's stripped form ends up queued. -/
theorem enqFold_spec (links : List String) :
    ∀ s : RunState, ∃ new : List String,
      links.foldl enqueue1 s =
        { s with queued := s.queued ++ new, queue := s.queue ++ new,
                 history := s.history ++ new }
      ∧ new.Nodup
      ∧ (∀ u ∈ new, u ∉ s.queued ∧ ∃ link ∈ links, u = stripFrag link)
      ∧ (∀ link ∈ links, stripFrag link ∈ s.queued ++ new) := by
  induction links with
  | nil =>
      intro s
      exact ⟨[], by simp, by simp, by simp, by simp⟩
  | cons link rest ih =>
      intro s
      rcases enqueue1_cases s link with ⟨hmem, heq⟩ | ⟨hmem, heq⟩
      · obtain ⟨new, h1, h2, h3, h4⟩ := ih (enqueue1 s link)
        rw [heq] at h1 h3 h4
        refine ⟨new, ?_, h2, ?_, ?_⟩
        · rw [List.foldl_cons, heq]
          exact h1
        · intro u hu
          obtain ⟨hnq, l, hl, he⟩ := h3 u hu
          exact ⟨hnq, l, List.mem_cons_of_mem _ hl, he⟩
        · intro l hl
          rcases List.mem_cons.mp hl with rfl | hl
          · exact List.mem_append_left _ hmem
          · exact h4 l hl
      · obtain ⟨new, h1, h2, h3, h4⟩ := ih (enqueue1 s link)
        rw [heq] at h1 h3 h4
        simp only at h1 h3 h4
        refine ⟨stripFrag link :: new, ?_, ?_, ?_, ?_⟩
        · rw [List.foldl_cons, heq, h1]
          simp [List.append_assoc]
        · refine List.nodup_cons.mpr ⟨?_, h2⟩
          intro hmem'
          exact (h3 _ hmem').1 (List.mem_append_right _ (by simp))
        · intro u hu
          rcases List.mem_cons.mp hu with rfl | hu
          · exact ⟨hmem, link, List.mem_cons_self _ _, rfl⟩
          · obtain ⟨hnq, l', hl', he⟩ := h3 u hu
            exact ⟨fun hq => hnq (List.mem_append_left _ hq), l',
              List.mem_cons_of_mem _ hl', he⟩
        · intro l' hl'
          rcases List.mem_cons.mp hl' with rfl | hl'
          · exact List.mem_append_right _ (List.mem_cons_self _ _)
          · have h5 := h4 l' hl'
            simpa [List.append_assoc] using h5

/-- The enqueue fold leaves every non-frontier component unchanged. -/
theorem enqFold_frame (links : List String) (s : RunState) :
    (links.foldl enqueue1 s).needs = s.needs
    ∧ (links.foldl enqueue1 s).crawled = s.crawled
    ∧ (links.foldl enqueue1 s).errs = s.errs
    ∧ (links.foldl enqueue1 s).openFetchs = s.openFetchs
    ∧ (links.foldl enqueue1 s).inflight = s.inflight
    ∧ (links.foldl enqueue1 s).dispatched = s.dispatched
    ∧ (links.foldl enqueue1 s).processed = s.processed
    ∧ (links.foldl enqueue1 s).exitCode = s.exitCode := by
  obtain ⟨new, h1, -, -, -⟩ := enqFold_spec links s
  rw [h1]
  exact ⟨rfl, rfl, rfl, rfl, rfl, rfl, rfl, rfl⟩

/-! ## Loop lemmas -/

theorem runLoop_stuck (F : String → FetchRes) (base : String) (s : RunState)
    (evs : List Event) (h : loopCond s = false) : runLoop F base s evs = s := by
  cases evs with
  | nil => rfl
  | cons e es => simp [runLoop, h]

theorem procResult_exitCode (base : String) (s : RunState) (u : String)
    (r : FetchRes) : (procResult base s u r).exitCode = s.exitCode := by
  unfold procResult
  cases r with
  | fail m => rfl
  | ok l i =>
      by_cases h : goHasPrefix u base
      · simp [h, (enqFold_frame l _).2.2.2.2.2.2.2]
      · simp [h]

theorem step_exitCode (F : String → FetchRes) (base : String) (s : RunState)
    (e : Event) (h : e ≠ Event.cancel) :
    (step F base s e).exitCode = s.exitCode := by
  cases e with
  | dispatch =>
      cases hq : s.queue with
      | nil => simp [step, hq]
      | cons u rest => simp [step, hq]
  | complete u =>
      by_cases hin : u ∈ s.inflight
      · simp [step, hin, procResult_exitCode]
      · simp [step, hin]
  | cancel => exact absurd rfl h

theorem runLoop_exitCode_no_cancel (F : String → FetchRes) (base : String)
    (evs : List Event) :
    ∀ s : RunState, Event.cancel ∉ evs →
      (runLoop F base s evs).exitCode = s.exitCode := by
  induction evs with
  | nil => intro s _; rfl
  | cons e es ih =>
      intro s h
      by_cases hl : loopCond s
      · rw [runLoop, if_pos hl,
          ih _ (fun hc => h (List.mem_cons_of_mem _ hc))]
        exact step_exitCode F base s e
          (fun he => h (he ▸ List.mem_cons_self _ _))
      · rw [runLoop, if_neg hl]

theorem runLoop_exitCode_cases (F : String → FetchRes) (base : String)
    (evs : List Event) :
    ∀ s : RunState, (runLoop F base s evs).exitCode = s.exitCode
      ∨ (runLoop F base s evs).exitCode = 3 := by
  induction evs with
  | nil => intro s; exact Or.inl rfl
  | cons e es ih =>
      intro s
      by_cases hl : loopCond s
      · rw [runLoop, if_pos hl]
        rcases ih (step F base s e) with h | h
        · cases e with
          | cancel => exact Or.inr (by rw [h]; rfl)
          | dispatch =>
              exact Or.inl (by
                rw [h]
                exact step_exitCode F base s .dispatch (fun hc => by cases hc))
          | complete u =>
              exact Or.inl (by
                rw [h]
                exact step_exitCode F base s (.complete u) (fun hc => by cases hc))
        · exact Or.inr h
      · rw [runLoop, if_neg hl]
        exact Or.inl rfl

/-- Unfolding of `runMain` into its two components. -/
theorem runMain_eq (F : String → FetchRes) (base : String) (evs : List Event)
    (order : List (String × List String)) :
    runMain F base evs order =
      (if (reconcile (runLoop F base (initState base) evs).errs order
            (runLoop F base (initState base) evs).crawled).length > 0
          && ((runLoop F base (initState base) evs).exitCode == 0) then 1
        else (runLoop F base (initState base) evs).exitCode,
       reconcile (runLoop F base (initState base) evs).errs order
         (runLoop F base (initState base) evs).crawled) := rfl

/-! ## Claim C1: cancellation and in-flight work -/

/-- C1 counterexample: the loop guard
`(openFetchs > 0 || len(queue) > 0) && exitCode == 0`
(`linkcheck.go:132`) fails as soon as the cancel case sets
`exitCode = 3`, so the loop exits with a fetch still in flight and that
fetch's result (here: ids `["i"]` for the root) is never folded into
the crawled map — contradicting the claim that every already-dispatched
fetch is drained into CrawledMap before the loop exits. -/
theorem cancel_drops_inflight_result :
    (runLoop (fun _ => FetchRes.ok [] ["i"]) "b" (initState "b")
        [.dispatch, .cancel, .complete "b"]).openFetchs = 1
    ∧ lookup (runLoop (fun _ => FetchRes.ok [] ["i"]) "b" (initState "b")
        [.dispatch, .cancel, .complete "b"]).crawled "b" = none
    ∧ (runLoop (fun _ => FetchRes.ok [] ["i"]) "b" (initState "b")
        [.dispatch, .cancel, .complete "b"]).exitCode = 3 :=
  ⟨rfl, rfl, rfl⟩

/-- C1 amended: on receiving a cancellation signal the scheduler stops
offering new work and exits the loop *immediately, without draining*:
the cancel step only sets the exit code, so the needs/crawled/error
state already accumulated is preserved exactly (and is still reconciled
and reported — partial results, not silence), but any event after the
signal — including the completion of an in-flight fetch — is no longer
processed, so in-flight results are dropped. -/
theorem cancel_exits_loop_immediately (F : String → FetchRes) (base : String)
    (s : RunState) (evs : List Event) (h : loopCond s = true) :
    runLoop F base s (Event.cancel :: evs) = { s with exitCode := 3 } := by
  rw [runLoop, if_pos h]
  exact runLoop_stuck F base _ evs (by simp [loopCond, step])

theorem cancel_exits_loop_immediately_witness :
    runLoop (fun _ => FetchRes.ok [] []) "b" (initState "b")
        [Event.cancel, Event.complete "b"]
      = { initState "b" with exitCode := 3 } :=
  cancel_exits_loop_immediately (fun _ => FetchRes.ok [] []) "b"
    (initState "b") [Event.complete "b"] (by decide)

/-! ## Claim C5: exit codes -/

/-- C5: at loop exit the exit code is 0 or 3; the printed defect list
is always the loop's accumulated error list followed by the
reconciler's per-pair defects (so a cancelled run still prints what was
accumulated); when cancellation occurred (exit code 3 in the loop) the
returned code is 3 regardless of defects, and when it did not, the
returned code is 0 with an empty defect list and 1 with a non-empty
one. -/
theorem run_exit_codes (F : String → FetchRes) (base : String)
    (evs : List Event) (order : List (String × List String)) :
    ((runLoop F base (initState base) evs).exitCode = 0
      ∨ (runLoop F base (initState base) evs).exitCode = 3)
    ∧ (runMain F base evs order).2 =
        (runLoop F base (initState base) evs).errs
          ++ order.flatMap (fun sd =>
              sd.2.flatMap (checkPair (runLoop F base (initState base) evs).crawled sd.1))
    ∧ ((runLoop F base (initState base) evs).exitCode = 3 →
        (runMain F base evs order).1 = 3)
    ∧ ((runLoop F base (initState base) evs).exitCode = 0 →
        ((runMain F base evs order).1 = 0 ↔ (runMain F base evs order).2 = [])
        ∧ ((runMain F base evs order).1 = 1 ↔ (runMain F base evs order).2 ≠ [])) := by
  refine ⟨?_, ?_, ?_, ?_⟩
  · have h := runLoop_exitCode_cases F base evs (initState base)
    simpa [initState] using h
  · rw [runMain_eq, reconcile_eq]
  · intro h3
    rw [runMain_eq]
    simp [h3]
  · intro h0
    rw [runMain_eq]
    simp only [h0]
    cases hr : reconcile (runLoop F base (initState base) evs).errs order
        (runLoop F base (initState base) evs).crawled with
    | nil => simp
    | cons p rest => simp

/-- C5 witness: a run that is cancelled immediately returns exit code 3
with an empty defect list. -/
theorem run_exit_codes_witness :
    (runMain (fun _ => FetchRes.ok [] []) "b" [Event.cancel] []).1 = 3 :=
  (run_exit_codes (fun _ => FetchRes.ok [] []) "b" [Event.cancel] []).2.2.1 rfl

/-! ## Claim C7: external URLs are leaves -/

/-- C7: a worker extracts links iff the URL is under the root (string
prefix), so a fetched URL not under the root reports no links; when the
scheduler processes its successful outcome it records the ids in the
crawled map and changes nothing else — needs, queue and queued are
untouched, so nothing is recorded or enqueued from an external page. -/
theorem external_url_is_leaf (F : String → FetchRes) (base u : String)
    (s : RunState) (l i : List String) (hin : u ∈ s.inflight)
    (hpre : goHasPrefix u base = false) (hF : F u = .ok l i) :
    workerRes F base u = .ok [] i
    ∧ step F base s (.complete u) =
        { s with openFetchs := s.openFetchs - 1,
                 inflight := s.inflight.erase u,
                 processed := s.processed ++ [u],
                 crawled := mapSet s.crawled u i } := by
  have hw : workerRes F base u = .ok [] i := by
    simp [workerRes, hF, hpre]
  refine ⟨hw, ?_⟩
  simp [step, hin, hw, procResult, hpre]

/-- A concrete scheduler state with one external URL in flight. -/
def wState : RunState :=
  { queue := [], queued := ["http://r/", "http://e/"],
    history := ["http://r/", "http://e/"], openFetchs := 1,
    inflight := ["http://e/"], dispatched := ["http://e/"] }

theorem external_url_is_leaf_witness :
    workerRes (fun _ => FetchRes.ok ["x"] ["i"]) "http://r/" "http://e/"
        = FetchRes.ok [] ["i"]
    ∧ step (fun _ => FetchRes.ok ["x"] ["i"]) "http://r/" wState
        (.complete "http://e/")
      = { wState with openFetchs := wState.openFetchs - 1,
                      inflight := wState.inflight.erase "http://e/",
                      processed := wState.processed ++ ["http://e/"],
                      crawled := mapSet wState.crawled "http://e/" ["i"] } :=
  external_url_is_leaf (fun _ => FetchRes.ok ["x"] ["i"]) "http://r/"
    "http://e/" wState ["x"] ["i"] (by decide) (by decide) rfl

/-! ## Claim C8: non-HTML pages count as reached -/

/-- Bridge from the concrete `fetch` triple to the abstract worker
outcome: an error message maps to a failure, a success to its links and
(non-nil) ids. -/
def toFetchRes (o : FetchOut) : FetchRes :=
  match o.err with
  | some m => .fail m
  | none => .ok o.links (o.ids.getD [])

/-- C8: a URL whose GET succeeds (status 200, readable peek) but whose
content type — sniffed from at most the first 512 bytes — is not
text/html makes `fetch` return success with no links and an empty but
non-nil id set, and folding that outcome into the scheduler state gives
the page a (present, empty) entry in the crawled map, so the
reconciler's nil check distinguishes it from a never-attempted or
failed URL. -/
theorem nonhtml_fetch_reached (ext : FetchExt) (excl : List String)
    (url base st : String) (body : List UInt8) (rerr : Option String)
    (pl : Bool) (s : RunState)
    (hpeek : rerr = none ∨ 512 ≤ body.length)
    (hct : goHasPrefix (ext.detect (body.take 512)) "text/html" = false) :
    fetch ext excl url (.ok ⟨200, st, body, rerr⟩) pl = ⟨[], some [], none⟩
    ∧ lookup (procResult base s url
        (toFetchRes (fetch ext excl url (.ok ⟨200, st, body, rerr⟩) pl))).crawled
        url = some [] := by
  have hf : fetch ext excl url (.ok ⟨200, st, body, rerr⟩) pl
      = ⟨[], some [], none⟩ := by
    rcases hpeek with h | h
    · simp [fetch, h, hct]
    · simp [fetch, Nat.not_lt.mpr h, hct]
  refine ⟨hf, ?_⟩
  rw [hf]
  show lookup (procResult base s url (.ok [] [])).crawled url = some []
  unfold procResult
  by_cases hp : goHasPrefix url base
  · simp [hp, (enqFold_frame [] _).2.1, lookup_mapSet_self]
  · simp [hp, lookup_mapSet_self]

theorem nonhtml_fetch_reached_witness :
    fetch extPlain [] "http://h/f.png" (.ok ⟨200, "200 OK", [65], none⟩) true
        = ⟨[], some [], none⟩
    ∧ lookup (procResult "http://h/" (initState "http://h/") "http://h/f.png"
        (toFetchRes (fetch extPlain [] "http://h/f.png"
          (.ok ⟨200, "200 OK", [65], none⟩) true))).crawled "http://h/f.png"
      = some [] :=
  nonhtml_fetch_reached extPlain [] "http://h/f.png" "http://h/" "200 OK"
    [65] none true (initState "http://h/") (Or.inl rfl) (by decide)

/-! ## Claim C10: bare anchors link to the page itself -/

/-- Unfolding of the walk: a node contributes its own link (if it is an
anchor) followed by its children's links in order. -/
theorem walkLinks_mk (url : String) (t : NodeType) (d : String)
    (a : List (String × String)) (cs : List HNode) :
    walkLinks url (.mk t d a cs) =
      (if isAnchor (.mk t d a cs) then [parseURL url (href (.mk t d a cs))]
        else []) ++ cs.flatMap (walkLinks url) := by
  rw [walkLinks]
  congr 1
  rw [show cs.attach.flatMap (fun c => walkLinks url c.1)
      = (cs.attach.map Subtype.val).flatMap (walkLinks url) from
        (List.flatMap_map _ _ _).symm,
    List.attach_map_subtype_val]

/-- C10: an anchor element with no `href` attribute yields the empty
string from `href`; resolving the empty reference against the page's
URL keeps the base's scheme, host, path and query and drops the
fragment, so for a fragment-free page URL `parseURL url "" = url`; a
page whose tree contains a bare `<a>` therefore records an outbound
link equal to the page's own URL. -/
theorem bare_anchor_links_to_self (u : GoURL) (us : String)
    (attrs : List (String × String)) (cs : List HNode)
    (hparse : urlParse us = u) (hround : urlToString u = us)
    (hfrag : u.fragment = "")
    (hno : ∀ a ∈ attrs, a.1 ≠ "href") :
    href (HNode.mk .elementNode "a" attrs cs) = ""
    ∧ parseURL us "" = us
    ∧ walkLinks us (HNode.mk .documentNode "" []
        [HNode.mk .elementNode "a" attrs []]) = [us] := by
  have hfind : attrs.find? (fun attr => attr.1 == "href") = none :=
    List.find?_eq_none.mpr (fun x hx => by simp [hno x hx])
  have hhref : ∀ cs' : List HNode,
      href (HNode.mk .elementNode "a" attrs cs') = "" := by
    intro cs'
    simp [href, HNode.attrs, hfind]
  have hresolve : resolve u (urlParse "") = u := by
    obtain ⟨sc, ho, pa, q, f⟩ := u
    simp only [GoURL.mk.injEq] at hfrag ⊢
    subst hfrag
    rfl
  have hpu : parseURL us "" = us := by
    unfold parseURL
    rw [hparse, hresolve, hround]
  refine ⟨hhref cs, hpu, ?_⟩
  rw [walkLinks_mk]
  simp [isAnchor, HNode.ntype, HNode.data, walkLinks_mk, hhref [], hpu]

theorem bare_anchor_links_to_self_witness :
    href (HNode.mk .elementNode "a" [("id", "x")] []) = ""
    ∧ parseURL "http://h/p" "" = "http://h/p"
    ∧ walkLinks "http://h/p" (HNode.mk .documentNode "" []
        [HNode.mk .elementNode "a" [("id", "x")] []]) = ["http://h/p"] :=
  bare_anchor_links_to_self ⟨"http", "h", "/p", "", ""⟩ "http://h/p"
    [("id", "x")] [] (by decide) (by decide) rfl (by decide)

/-! ## The scheduler invariant

Ghost-state characterisation of every reachable loop state: the
frontier history is duplicate-free and splits into dispatched plus
pending URLs, the dispatched URLs split (up to order) into processed
plus in-flight ones, and the three result structures (`crawled`,
`needs`, `errs`) are determined pointwise by the set of processed URLs
and the site function. -/

/-- The crawled-map entry a processed set determines for `u`: present
with `u`'s ids iff `u` was processed and its fetch succeeded. -/
def crawledSpec (F : String → FetchRes) (P : List String) (u : String) :
    Option (List String) :=
  if u ∈ P then
    match F u with
    | .fail _ => none
    | .ok _ i => some i
  else none

/-- The needs-map entry a processed set determines for `u`: present
with `u`'s outbound links iff `u` was processed, is under the root, and
its fetch succeeded. -/
def needsSpec (F : String → FetchRes) (base : String) (P : List String)
    (u : String) : Option (List String) :=
  if u ∈ P ∧ goHasPrefix u base = true then
    match F u with
    | .fail _ => none
    | .ok l _ => some l
  else none

/-- The error-list entry contributed by a processed URL. -/
def errEntry (F : String → FetchRes) (u : String) :
    Option (String × String) :=
  match F u with
  | .fail m => some (u, m)
  | .ok _ _ => none

/-- The URLs a crawl from `base` can ever enqueue: the root, and the
fragment-stripped outbound links of reachable under-root pages whose
fetch succeeds. -/
inductive Reach (F : String → FetchRes) (base : String) : String → Prop where
  | root : Reach F base base
  | child (u : String) (l i : List String) (link : String) :
      Reach F base u → goHasPrefix u base = true → F u = .ok l i →
      link ∈ l → Reach F base (stripFrag link)

structure Inv (F : String → FetchRes) (base : String) (s : RunState) :
    Prop where
  hist_eq : s.history = s.dispatched ++ s.queue
  hist_nd : s.history.Nodup
  queued_iff : ∀ u, u ∈ s.queued ↔ u ∈ s.history
  disp_perm : s.dispatched.Perm (s.processed ++ s.inflight)
  open_eq : s.openFetchs = s.inflight.length
  crawled_spec : ∀ u, lookup s.crawled u = crawledSpec F s.processed u
  needs_spec : ∀ u, lookup s.needs u = needsSpec F base s.processed u
  needs_keys : (s.needs.map Prod.fst).Nodup
  errs_spec : s.errs = s.processed.filterMap (errEntry F)
  closure : ∀ u ∈ s.processed, ∀ l i, goHasPrefix u base = true →
      F u = .ok l i → ∀ link ∈ l, stripFrag link ∈ s.queued
  reach : ∀ u ∈ s.history, Reach F base u
  seeded : base ∈ s.history

theorem initState_inv (F : String → FetchRes) (base : String) :
    Inv F base (initState base) := by
  refine ⟨rfl, ?_, ?_, ?_, rfl, ?_, ?_, ?_, rfl, ?_, ?_, ?_⟩
  · simp [initState]
  · intro u; simp [initState]
  · simp [initState]
  · intro u; simp [initState, lookup, crawledSpec]
  · intro u; simp [initState, lookup, needsSpec]
  · simp [initState]
  · intro u hu; simp [initState] at hu
  · intro u hu
    simp [initState] at hu
    subst hu
    exact Reach.root
  · simp [initState]

/-! Shape lemmas for `procResult`. -/

theorem procResult_fail_eq (base : String) (s : RunState) (u m : String) :
    procResult base s u (.fail m) =
      { s with openFetchs := s.openFetchs - 1,
               inflight := s.inflight.erase u,
               processed := s.processed ++ [u],
               errs := s.errs ++ [(u, m)] } := rfl

theorem procResult_ok_ext (base : String) (s : RunState) (u : String)
    (l i : List String) (hpre : goHasPrefix u base = false) :
    procResult base s u (.ok l i) =
      { s with openFetchs := s.openFetchs - 1,
               inflight := s.inflight.erase u,
               processed := s.processed ++ [u],
               crawled := mapSet s.crawled u i } := by
  simp [procResult, hpre]

theorem procResult_ok_under (base : String) (s : RunState) (u : String)
    (l i : List String) (hpre : goHasPrefix u base = true) :
    procResult base s u (.ok l i) =
      l.foldl enqueue1
        { s with openFetchs := s.openFetchs - 1,
                 inflight := s.inflight.erase u,
                 processed := s.processed ++ [u],
                 crawled := mapSet s.crawled u i,
                 needs := mapSet s.needs u l } := by
  simp [procResult, hpre]

/-! Congruence lemmas for the spec maps under processing one more URL. -/

theorem crawledSpec_append_ne (F : String → FetchRes) (P : List String)
    {u v : String} (hv : v ≠ u) :
    crawledSpec F (P ++ [u]) v = crawledSpec F P v := by
  unfold crawledSpec
  simp [List.mem_append, hv]

theorem needsSpec_append_ne (F : String → FetchRes) (base : String)
    (P : List String) {u v : String} (hv : v ≠ u) :
    needsSpec F base (P ++ [u]) v = needsSpec F base P v := by
  unfold needsSpec
  simp [List.mem_append, hv]

/-- Bookkeeping facts available whenever a result for an in-flight URL
is processed. -/
theorem inv_complete_facts {F : String → FetchRes} {base : String}
    {s : RunState} {u : String} (hInv : Inv F base s)
    (hu : u ∈ s.inflight) :
    s.dispatched.Nodup
    ∧ u ∉ s.processed
    ∧ u ∈ s.history
    ∧ s.dispatched.Perm ((s.processed ++ [u]) ++ s.inflight.erase u)
    ∧ s.openFetchs - 1 = (s.inflight.erase u).length := by
  have hh' := hInv.hist_nd
  rw [hInv.hist_eq] at hh'
  have hnd : s.dispatched.Nodup := (List.nodup_append.mp hh').1
  have hpi : (s.processed ++ s.inflight).Nodup :=
    hInv.disp_perm.nodup hnd
  have hup : u ∉ s.processed := fun hp =>
    (List.nodup_append.mp hpi).2.2 hp hu
  have hd : u ∈ s.dispatched :=
    hInv.disp_perm.mem_iff.mpr (List.mem_append_right _ hu)
  have hh : u ∈ s.history := by
    rw [hInv.hist_eq]
    exact List.mem_append_left _ hd
  have hperm : s.dispatched.Perm
      ((s.processed ++ [u]) ++ s.inflight.erase u) := by
    have h1 : s.inflight.Perm (u :: s.inflight.erase u) :=
      List.perm_cons_erase hu
    have h2 := hInv.disp_perm.trans (List.Perm.append_left s.processed h1)
    have h3 : s.processed ++ u :: s.inflight.erase u
        = (s.processed ++ [u]) ++ s.inflight.erase u := by simp
    rw [h3] at h2
    exact h2
  have hopen : s.openFetchs - 1 = (s.inflight.erase u).length := by
    rw [hInv.open_eq, List.length_erase_of_mem hu]
  exact ⟨hnd, hup, hh, hperm, hopen⟩

theorem procResult_fail_inv {F : String → FetchRes} {base : String}
    {s : RunState} {u m : String} (hInv : Inv F base s)
    (hu : u ∈ s.inflight) (hF : F u = .fail m) :
    Inv F base (procResult base s u (.fail m)) := by
  obtain ⟨hnd, hup, hh, hperm, hopen⟩ := inv_complete_facts hInv hu
  rw [procResult_fail_eq]
  refine ⟨hInv.hist_eq, hInv.hist_nd, hInv.queued_iff, hperm, hopen,
    ?_, ?_, hInv.needs_keys, ?_, ?_, hInv.reach, hInv.seeded⟩
  · intro v
    show lookup s.crawled v = crawledSpec F (s.processed ++ [u]) v
    rw [hInv.crawled_spec v]
    by_cases hv : v = u
    · subst hv
      unfold crawledSpec
      simp [hup, hF]
    · rw [crawledSpec_append_ne F _ hv]
  · intro v
    show lookup s.needs v = needsSpec F base (s.processed ++ [u]) v
    rw [hInv.needs_spec v]
    by_cases hv : v = u
    · subst hv
      unfold needsSpec
      simp [hup, hF]
    · rw [needsSpec_append_ne F base _ hv]
  · show s.errs ++ [(u, m)] = (s.processed ++ [u]).filterMap (errEntry F)
    rw [List.filterMap_append, hInv.errs_spec]
    simp [errEntry, hF]
  · intro v hv l i hpre hFv link hl
    rcases List.mem_append.mp hv with hv | hv
    · exact hInv.closure v hv l i hpre hFv link hl
    · rw [List.mem_singleton.mp hv] at hFv
      rw [hF] at hFv
      cases hFv

theorem procResult_ok_ext_inv {F : String → FetchRes} {base : String}
    {s : RunState} {u : String} {l i : List String} (hInv : Inv F base s)
    (hu : u ∈ s.inflight) (hF : F u = .ok l i)
    (hpre : goHasPrefix u base = false) {l' : List String} :
    Inv F base (procResult base s u (.ok l' i)) := by
  obtain ⟨hnd, hup, hh, hperm, hopen⟩ := inv_complete_facts hInv hu
  rw [procResult_ok_ext base s u l' i hpre]
  refine ⟨hInv.hist_eq, hInv.hist_nd, hInv.queued_iff, hperm, hopen,
    ?_, ?_, hInv.needs_keys, ?_, ?_, hInv.reach, hInv.seeded⟩
  · intro v
    show lookup (mapSet s.crawled u i) v = crawledSpec F (s.processed ++ [u]) v
    by_cases hv : v = u
    · subst hv
      rw [lookup_mapSet_self]
      unfold crawledSpec
      simp [hF]
    · rw [lookup_mapSet_ne s.crawled i hv, hInv.crawled_spec v,
        crawledSpec_append_ne F _ hv]
  · intro v
    show lookup s.needs v = needsSpec F base (s.processed ++ [u]) v
    rw [hInv.needs_spec v]
    by_cases hv : v = u
    · subst hv
      unfold needsSpec
      simp [hup, hpre]
    · rw [needsSpec_append_ne F base _ hv]
  · show s.errs = (s.processed ++ [u]).filterMap (errEntry F)
    rw [List.filterMap_append, hInv.errs_spec]
    simp [errEntry, hF]
  · intro v hv lv iv hprev hFv link hl
    rcases List.mem_append.mp hv with hv | hv
    · exact hInv.closure v hv lv iv hprev hFv link hl
    · rw [List.mem_singleton.mp hv] at hprev
      rw [hprev] at hpre
      cases hpre

theorem procResult_ok_under_inv {F : String → FetchRes} {base : String}
    {s : RunState} {u : String} {l i : List String} (hInv : Inv F base s)
    (hu : u ∈ s.inflight) (hF : F u = .ok l i)
    (hpre : goHasPrefix u base = true) :
    Inv F base (procResult base s u (.ok l i)) := by
  obtain ⟨hnd, hup, hh, hperm, hopen⟩ := inv_complete_facts hInv hu
  rw [procResult_ok_under base s u l i hpre]
  obtain ⟨new, heq, hnodup, hfresh, hcov⟩ := enqFold_spec l
    { s with openFetchs := s.openFetchs - 1,
             inflight := s.inflight.erase u,
             processed := s.processed ++ [u],
             crawled := mapSet s.crawled u i,
             needs := mapSet s.needs u l }
  rw [heq]
  simp only at hfresh hcov
  have hnone : lookup s.needs u = none := by
    rw [hInv.needs_spec u]
    unfold needsSpec
    simp [hup]
  refine ⟨?_, ?_, ?_, hperm, hopen, ?_, ?_, ?_, ?_, ?_, ?_, ?_⟩
  · show s.history ++ new = s.dispatched ++ (s.queue ++ new)
    rw [hInv.hist_eq, List.append_assoc]
  · show (s.history ++ new).Nodup
    refine List.nodup_append.mpr ⟨hInv.hist_nd, hnodup, ?_⟩
    intro a ha hn
    exact (hfresh a hn).1 ((hInv.queued_iff a).mpr ha)
  · intro v
    show v ∈ s.queued ++ new ↔ v ∈ s.history ++ new
    simp [List.mem_append, hInv.queued_iff v]
  · intro v
    show lookup (mapSet s.crawled u i) v = crawledSpec F (s.processed ++ [u]) v
    by_cases hv : v = u
    · subst hv
      rw [lookup_mapSet_self]
      unfold crawledSpec
      simp [hF]
    · rw [lookup_mapSet_ne s.crawled i hv, hInv.crawled_spec v,
        crawledSpec_append_ne F _ hv]
  · intro v
    show lookup (mapSet s.needs u l) v = needsSpec F base (s.processed ++ [u]) v
    by_cases hv : v = u
    · subst hv
      rw [lookup_mapSet_self]
      unfold needsSpec
      simp [hF, hpre]
    · rw [lookup_mapSet_ne s.needs l hv, hInv.needs_spec v,
        needsSpec_append_ne F base _ hv]
  · show ((mapSet s.needs u l).map Prod.fst).Nodup
    rw [mapSet_of_lookup_none s.needs l hnone, List.map_append]
    refine List.nodup_append.mpr ⟨hInv.needs_keys, by simp, ?_⟩
    intro a ha hb
    simp only [List.map_cons, List.map_nil, List.mem_singleton] at hb
    subst hb
    exact (lookup_eq_none_iff s.needs a).mp hnone ha
  · show s.errs = (s.processed ++ [u]).filterMap (errEntry F)
    rw [List.filterMap_append, hInv.errs_spec]
    simp [errEntry, hF]
  · intro v hv lv iv hprev hFv link hl
    show stripFrag link ∈ s.queued ++ new
    rcases List.mem_append.mp hv with hv | hv
    · exact List.mem_append_left _ (hInv.closure v hv lv iv hprev hFv link hl)
    · rw [List.mem_singleton.mp hv] at hFv
      rw [hF] at hFv
      injection hFv with hl' hi'
      subst hl'
      exact hcov link hl
  · intro v hv
    show Reach F base v
    rcases List.mem_append.mp hv with hv | hv
    · exact hInv.reach v hv
    · obtain ⟨-, link, hlink, hv'⟩ := hfresh v hv
      subst hv'
      exact Reach.child u l i link (hInv.reach u hh) hpre hF hlink
  · exact List.mem_append_left _ hInv.seeded

theorem step_inv (F : String → FetchRes) (base : String) (s : RunState)
    (e : Event) (hInv : Inv F base s) : Inv F base (step F base s e) := by
  cases e with
  | cancel =>
      exact ⟨hInv.hist_eq, hInv.hist_nd, hInv.queued_iff, hInv.disp_perm,
        hInv.open_eq, hInv.crawled_spec, hInv.needs_spec, hInv.needs_keys,
        hInv.errs_spec, hInv.closure, hInv.reach, hInv.seeded⟩
  | dispatch =>
      cases hq : s.queue with
      | nil =>
          have hstep : step F base s .dispatch = s := by simp [step, hq]
          rw [hstep]
          exact hInv
      | cons u rest =>
          have hstep : step F base s .dispatch =
              { s with queue := rest, openFetchs := s.openFetchs + 1,
                       inflight := s.inflight ++ [u],
                       dispatched := s.dispatched ++ [u] } := by
            simp [step, hq]
          rw [hstep]
          refine ⟨?_, hInv.hist_nd, hInv.queued_iff, ?_, ?_,
            hInv.crawled_spec, hInv.needs_spec, hInv.needs_keys,
            hInv.errs_spec, hInv.closure, hInv.reach, hInv.seeded⟩
          · show s.history = s.dispatched ++ [u] ++ rest
            rw [hInv.hist_eq, hq]
            simp
          · show (s.dispatched ++ [u]).Perm (s.processed ++ (s.inflight ++ [u]))
            have h1 := hInv.disp_perm.append_right [u]
            rw [List.append_assoc] at h1
            exact h1
          · show s.openFetchs + 1 = (s.inflight ++ [u]).length
            simp [hInv.open_eq]
  | complete u =>
      by_cases hin : u ∈ s.inflight
      · have hstep : step F base s (.complete u)
            = procResult base s u (workerRes F base u) := by
          simp [step, hin]
        rw [hstep]
        cases hF : F u with
        | fail m =>
            have hw : workerRes F base u = .fail m := by
              simp [workerRes, hF]
            rw [hw]
            exact procResult_fail_inv hInv hin hF
        | ok l i =>
            have hw : workerRes F base u
                = .ok (if goHasPrefix u base then l else []) i := by
              simp [workerRes, hF]
            rw [hw]
            by_cases hpre : goHasPrefix u base
            · rw [if_pos hpre]
              exact procResult_ok_under_inv hInv hin hF hpre
            · rw [if_neg hpre]
              exact procResult_ok_ext_inv hInv hin hF (by simpa using hpre)
      · have hstep : step F base s (.complete u) = s := by simp [step, hin]
        rw [hstep]
        exact hInv

theorem runLoop_inv (F : String → FetchRes) (base : String)
    (evs : List Event) :
    ∀ s : RunState, Inv F base s → Inv F base (runLoop F base s evs) := by
  induction evs with
  | nil => intro s h; exact h
  | cons e es ih =>
      intro s h
      by_cases hl : loopCond s
      · rw [runLoop, if_pos hl]
        exact ih _ (step_inv F base s e h)
      · rw [runLoop, if_neg hl]
        exact h

/-- At a naturally drained loop state (guard false, not cancelled) the
queue and the in-flight set are empty, and the processed URLs are
exactly the reachable ones. -/
theorem terminal_char {F : String → FetchRes} {base : String}
    {s : RunState} (hInv : Inv F base s) (hterm : loopCond s = false)
    (hec : s.exitCode = 0) :
    s.queue = [] ∧ s.inflight = []
    ∧ (∀ u, u ∈ s.processed ↔ Reach F base u)
    ∧ s.processed.Nodup := by
  have h0 : s.openFetchs = 0 ∧ s.queue = [] := by
    unfold loopCond at hterm
    rw [hec] at hterm
    simp at hterm
    exact ⟨by omega, hterm.2⟩
  have hinf : s.inflight = [] :=
    List.eq_nil_of_length_eq_zero (by rw [← hInv.open_eq, h0.1])
  have hhist : s.history = s.dispatched := by
    rw [hInv.hist_eq, h0.2, List.append_nil]
  have hdp : s.dispatched.Perm s.processed := by
    have h := hInv.disp_perm
    rw [hinf, List.append_nil] at h
    exact h
  have hndd : s.dispatched.Nodup := by
    have h' := hInv.hist_nd
    rw [hhist] at h'
    exact h'
  have hndp : s.processed.Nodup := hdp.nodup hndd
  have hmem : ∀ u, u ∈ s.processed ↔ u ∈ s.history := by
    intro u
    rw [hhist]
    exact hdp.mem_iff.symm
  have hback : ∀ u, Reach F base u → u ∈ s.processed := by
    intro u hr
    induction hr with
    | root => exact (hmem base).mpr hInv.seeded
    | child v l i link hrv hprev hFv hlink ih =>
        have hq' := hInv.closure v ih l i hprev hFv link hlink
        exact (hmem _).mpr ((hInv.queued_iff _).mp hq')
  exact ⟨h0.2, hinf,
    fun u => ⟨fun hu => hInv.reach u ((hmem u).mp hu), hback u⟩, hndp⟩

/-- Any two naturally drained loop states of the same site and root
agree on the crawled map, on the needs map up to entry order, and on
the accumulated error list up to order. -/
theorem terminal_agreement {F : String → FetchRes} {base : String}
    {s₁ s₂ : RunState} (hInv₁ : Inv F base s₁) (hInv₂ : Inv F base s₂)
    (ht₁ : loopCond s₁ = false) (ht₂ : loopCond s₂ = false)
    (he₁ : s₁.exitCode = 0) (he₂ : s₂.exitCode = 0) :
    (∀ u, lookup s₁.crawled u = lookup s₂.crawled u)
    ∧ s₁.needs.Perm s₂.needs
    ∧ s₁.errs.Perm s₂.errs := by
  have hterm₁ := terminal_char hInv₁ ht₁ he₁
  have hterm₂ := terminal_char hInv₂ ht₂ he₂
  have hmm : ∀ u, u ∈ s₁.processed ↔ u ∈ s₂.processed := fun u =>
    (hterm₁.2.2.1 u).trans (hterm₂.2.2.1 u).symm
  have hpp : s₁.processed.Perm s₂.processed :=
    (List.perm_ext_iff_of_nodup hterm₁.2.2.2 hterm₂.2.2.2).mpr hmm
  have hcl : ∀ u, lookup s₁.crawled u = lookup s₂.crawled u := by
    intro u
    rw [hInv₁.crawled_spec u, hInv₂.crawled_spec u]
    unfold crawledSpec
    by_cases h : u ∈ s₁.processed
    · rw [if_pos h, if_pos ((hmm u).mp h)]
    · rw [if_neg h, if_neg (fun hh => h ((hmm u).mpr hh))]
  have hns : ∀ u, lookup s₁.needs u = lookup s₂.needs u := by
    intro u
    rw [hInv₁.needs_spec u, hInv₂.needs_spec u]
    unfold needsSpec
    by_cases h : u ∈ s₁.processed ∧ goHasPrefix u base = true
    · rw [if_pos h, if_pos ⟨(hmm u).mp h.1, h.2⟩]
    · rw [if_neg h, if_neg (fun hh => h ⟨(hmm u).mpr hh.1, hh.2⟩)]
  refine ⟨hcl, assoc_perm hInv₁.needs_keys hInv₂.needs_keys hns, ?_⟩
  rw [hInv₁.errs_spec, hInv₂.errs_spec]
  exact hpp.filterMap _

/-! ## Claim C4: at-most-once enqueue -/

/-- C4: along any run, the ghost history of all URLs ever appended to
the frontier is duplicate-free (so each URL is enqueued at most once),
so is the list of URLs handed to workers (each page fetched at most
once); the queued set contains exactly the URLs ever enqueued, and the
history splits into dispatched URLs followed by the current queue.
Moreover the enqueue step deduplicates on the fragment-stripped form:
a link whose stripped form is already queued changes nothing, and a
fresh one is marked queued and appended to queue and history together,
so distinct fragment references to one page cause one enqueue. -/
theorem frontier_enqueued_at_most_once (F : String → FetchRes)
    (base : String) (evs : List Event) :
    (runLoop F base (initState base) evs).history.Nodup
    ∧ (runLoop F base (initState base) evs).dispatched.Nodup
    ∧ (∀ u, u ∈ (runLoop F base (initState base) evs).queued
        ↔ u ∈ (runLoop F base (initState base) evs).history)
    ∧ (runLoop F base (initState base) evs).history
        = (runLoop F base (initState base) evs).dispatched
          ++ (runLoop F base (initState base) evs).queue
    ∧ (∀ t : RunState, ∀ link : String,
        stripFrag link ∈ t.queued → enqueue1 t link = t)
    ∧ (∀ t : RunState, ∀ link : String, stripFrag link ∉ t.queued →
        enqueue1 t link =
          { t with queued := t.queued ++ [stripFrag link],
                   queue := t.queue ++ [stripFrag link],
                   history := t.history ++ [stripFrag link] }) := by
  have hInv := runLoop_inv F base evs (initState base) (initState_inv F base)
  have hnd_disp : (runLoop F base (initState base) evs).dispatched.Nodup := by
    have h' := hInv.hist_nd
    rw [hInv.hist_eq] at h'
    exact (List.nodup_append.mp h').1
  refine ⟨hInv.hist_nd, hnd_disp, hInv.queued_iff, hInv.hist_eq, ?_, ?_⟩
  · intro t link h
    simp [enqueue1, h]
  · intro t link h
    simp [enqueue1, h]

theorem frontier_enqueued_at_most_once_witness :
    (runLoop (fun _ => FetchRes.ok [] []) "b" (initState "b")
        [.dispatch, .complete "b"]).history.Nodup
    ∧ enqueue1 (initState "b") "b#f" = initState "b" :=
  ⟨(frontier_enqueued_at_most_once (fun _ => FetchRes.ok [] []) "b"
      [.dispatch, .complete "b"]).1,
   (frontier_enqueued_at_most_once (fun _ => FetchRes.ok [] []) "b"
      [.dispatch, .complete "b"]).2.2.2.2.1 (initState "b") "b#f" (by decide)⟩

/-! ## Claim C9: schedule independence of the final defects -/

/-- C9: for a fixed site and root, any two complete crawls — any event
interleavings that run the loop to natural exhaustion without
cancellation, which covers both 1-worker and N-worker schedules, since
worker count only restricts which interleavings can occur — produce
the same exit code and the same defect list up to order (each paired
with any iteration order of its final needs map). -/
theorem defects_independent_of_schedule (F : String → FetchRes)
    (base : String) (evs₁ evs₂ : List Event)
    (order₁ order₂ : List (String × List String))
    (hc₁ : Event.cancel ∉ evs₁) (hc₂ : Event.cancel ∉ evs₂)
    (ht₁ : loopCond (runLoop F base (initState base) evs₁) = false)
    (ht₂ : loopCond (runLoop F base (initState base) evs₂) = false)
    (ho₁ : order₁.Perm (runLoop F base (initState base) evs₁).needs)
    (ho₂ : order₂.Perm (runLoop F base (initState base) evs₂).needs) :
    (runMain F base evs₁ order₁).1 = (runMain F base evs₂ order₂).1
    ∧ (runMain F base evs₁ order₁).2.Perm (runMain F base evs₂ order₂).2 := by
  have hInv₁ := runLoop_inv F base evs₁ (initState base) (initState_inv F base)
  have hInv₂ := runLoop_inv F base evs₂ (initState base) (initState_inv F base)
  have hec₁ : (runLoop F base (initState base) evs₁).exitCode = 0 :=
    runLoop_exitCode_no_cancel F base evs₁ (initState base) hc₁
  have hec₂ : (runLoop F base (initState base) evs₂).exitCode = 0 :=
    runLoop_exitCode_no_cancel F base evs₂ (initState base) hc₂
  obtain ⟨hcl, hneq, herr⟩ :=
    terminal_agreement hInv₁ hInv₂ ht₁ ht₂ hec₁ hec₂
  have hor : order₁.Perm order₂ := ho₁.trans (hneq.trans ho₂.symm)
  have hcp : (fun sd : String × List String =>
        sd.2.flatMap (checkPair (runLoop F base (initState base) evs₁).crawled sd.1))
      = (fun sd : String × List String =>
        sd.2.flatMap (checkPair (runLoop F base (initState base) evs₂).crawled sd.1)) := by
    funext sd
    apply congrArg
    funext dest
    unfold checkPair
    rw [hcl]
  have hrec : (reconcile (runLoop F base (initState base) evs₁).errs order₁
        (runLoop F base (initState base) evs₁).crawled).Perm
      (reconcile (runLoop F base (initState base) evs₂).errs order₂
        (runLoop F base (initState base) evs₂).crawled) := by
    rw [reconcile_eq, reconcile_eq]
    refine herr.append ?_
    rw [← hcp]
    exact hor.flatMap_right _
  constructor
  · rw [runMain_eq, runMain_eq]
    simp only [hec₁, hec₂, hrec.length_eq]
  · rw [runMain_eq, runMain_eq]
    exact hrec

/-- A concrete two-page site: the root links twice (with different
fragments) to a page that fails to fetch. -/
def siteW : String → FetchRes := fun u =>
  if u = "b" then .ok ["b/x#1", "b/x#2"] [] else .fail "404 Not Found"

def evsA : List Event := [.dispatch, .complete "b", .dispatch, .complete "b/x"]

def evsB : List Event :=
  [.dispatch, .dispatch, .complete "b", .dispatch, .complete "b/x"]

def orderW : List (String × List String) := [("b", ["b/x#1", "b/x#2"])]

theorem defects_independent_of_schedule_witness :
    (runMain siteW "b" evsA orderW).1 = (runMain siteW "b" evsB orderW).1
    ∧ (runMain siteW "b" evsA orderW).2.Perm (runMain siteW "b" evsB orderW).2 :=
  defects_independent_of_schedule siteW "b" evsA evsB orderW orderW
    (by decide) (by decide) (by decide) (by decide) (by decide) (by decide)

end Linkcheck
